import Mathlib

/-!
# Verification of the lilos bounded queue and atomic polyfill

This file gives a shallow embedding, in Lean 4, of the core of the
lilos cooperative executor's bounded inter-task queue (`src/queue.rs`)
and its atomic polyfill layer (`os/src/atomic.rs` with the
`native_rmw.rs` and `cortex_no_rmw.rs` back-ends), together with
proofs of the functional properties stated in the specification.

Modelling conventions:
* `MaybeUninit<T>` slots become `Option α`: `none` is an uninitialized
  (not live) slot, `some v` a live slot holding `v`.  A raw
  `core::ptr::write` is `List.set` (it overwrites without running any
  destructor on the previous contents); a raw `core::ptr::read` that
  moves a value out logically de-initializes the slot, so it is
  modelled by reading the slot and then setting it to `none`.
* `Cell<usize>` fields become plain `Nat` fields threaded through
  state.
* A Rust panic, failed assertion or out-of-bounds index is `none` of
  an `Option` result.
* Calls into the intrusive wait-list (`List<()>`, a primitive external
  to this crate) are recorded as booleans: `wokePop` / `wokePush` are
  `true` exactly when the code calls `wake_one` on the corresponding
  list.  For the scheduling model (namespace `Sched`) the wait list
  itself is modelled from the specification's wait-list contract
  (spec section 6): a FIFO of task identifiers, `insert_and_wait`
  enrolls at the tail, `wake_one` detaches the front.
-/

namespace Lilos

/-- State of `Queue<T, S>` from `src/queue.rs` (fields `storage`,
`pending`, `head`, `tail`).  The `storage_ptr` field of the Rust
struct is an alias for `storage` and carries no separate state; the
two wait lists hold no ring-buffer state and are modelled separately
(see namespace `Sched`). -/
structure Queue (α : Type) where
  /-- The storage slots; `none` is uninitialized (`MaybeUninit`). -/
  storage : List (Option α)
  /-- Number of items present in the queue (`pending: Cell<usize>`). -/
  pending : Nat
  /-- Index of next slot to write during push (`head: Cell<usize>`). -/
  head : Nat
  /-- Index of next slot to read during pop (`tail: Cell<usize>`). -/
  tail : Nat
deriving Repr, DecidableEq

namespace Queue

variable {α : Type}

/-- Translation of `Queue::capacity`: `self.storage.as_slice().len()`. -/
def capacity (q : Queue α) : Nat := q.storage.length

/-- Translation of `Queue::is_full`:
`self.pending.get() == self.capacity()`. -/
def is_full (q : Queue α) : Bool := q.pending == q.capacity

/-- Translation of `Queue::len`: `self.pending.get()`. -/
def len (q : Queue α) : Nat := q.pending

/-- Translation of `Queue::is_empty`: `self.pending.get() == 0`. -/
def is_empty (q : Queue α) : Bool := q.pending == 0

/-- Contents of storage slot `i` (that is, `storage_ptr.add(i)` viewed
through `MaybeUninit`); an out-of-range read yields `none` like an
uninitialized slot (it never occurs under the queue invariant). -/
def slot (q : Queue α) (i : Nat) : Option α := q.storage.getD i none

/-- Result of `Queue::try_push`: the returned `Result<(), T>`, the
queue state after the call, and whether `pop_waiters().wake_one()`
was called. -/
structure PushResult (α : Type) where
  result : Except α Unit
  state : Queue α
  wokePop : Bool
deriving Repr

/-- Translation of `Queue::try_push` (queue.rs lines 155 to 189), step
by step: the full check returning `Err(value)`, the raw write of
`value` into slot `h = head`, the head advance by conditional reset
`if h == capacity - 1 \x7b 0 \x7d else \x7b h + 1 \x7d`, the increment
of `pending`, and the empty-transition test `h == self.tail.get()`
guarding `pop_waiters().wake_one()`. -/
def try_push (q : Queue α) (value : α) : PushResult α :=
  if q.is_full then
    ⟨.error value, q, false⟩
  else
    let h := q.head
    let storage' := q.storage.set h (some value)
    let head' := if h == q.capacity - 1 then 0 else h + 1
    let pending' := q.pending + 1
    let woke := h == q.tail
    ⟨.ok (), { q with storage := storage', head := head', pending := pending' }, woke⟩

/-- Translation of the committing body of `Queue::pop` (queue.rs lines
210 to 233): the code after the wait loop, which runs exactly when the
queue is non-empty.  Returns `none` when the queue is empty (the async
code would suspend instead of running this body) or when the slot read
at `tail` is uninitialized (undefined behaviour of `assume_init` in
the source, excluded by the queue invariant).  Otherwise returns the
value moved out, the new state, and whether
`push_waiters().wake_one()` was called (the full-transition test
`t == self.head.get()`). -/
def popCommit (q : Queue α) : Option (α × Queue α × Bool) :=
  if q.is_empty then none
  else
    let t := q.tail
    match q.slot t with
    | none => none
    | some v =>
      let tail' := if t == q.capacity - 1 then 0 else t + 1
      let pending' := q.pending - 1
      some (v, { q with storage := q.storage.set t none,
                        tail := tail', pending := pending' },
            t == q.head)

/-- Translation of `Queue::new` (queue.rs lines 79 to 89) applied to
fresh uninitialized storage of `n` slots: `pending = 0`, `head = 0`,
`tail = 0`, every slot uninitialized. -/
def init (α : Type) (n : Nat) : Queue α :=
  { storage := List.replicate n none, pending := 0, head := 0, tail := 0 }

/-- Translation of `Queue::finish_init` (queue.rs lines 98 to 106): it
patches the storage pointer by taking the address of
`storage.as_mut_slice()[0]`.  The index `[0]` panics on an empty
slice, modelled by `none`; on success the queue state (already set up
by `new`) is returned usable. -/
def finish_init (q : Queue α) : Option (Queue α) :=
  (q.storage.get? 0).map (fun _ => q)

/-- Slot indices visited by the `Drop` implementation for `Queue`
(queue.rs lines 272 to 285): starting at `t = tail`, `n = pending`
steps, each running `drop_in_place` on slot `t` and then advancing
`t = (t + 1) % s.len()`. -/
def dropWalk (len : Nat) (t : Nat) : Nat → List Nat
  | 0 => []
  | n + 1 => t :: dropWalk len ((t + 1) % len) n

/-- Indices whose slots the `Drop` implementation destructs, for queue
state `q`. -/
def dropIndices (q : Queue α) : List Nat :=
  dropWalk q.capacity q.tail q.pending

/-- Representation invariant of the ring buffer: `pending` is at most
the capacity, `head` and `tail` are in range, `head` sits `pending`
slots past `tail` modulo the capacity, and a slot is initialized
exactly when it is one of the `pending` slots starting at `tail`. -/
def Inv (q : Queue α) : Prop :=
  q.pending ≤ q.capacity ∧
  q.head < q.capacity ∧
  q.tail < q.capacity ∧
  q.head = (q.tail + q.pending) % q.capacity ∧
  ∀ i < q.capacity,
    ((q.slot i).isSome ↔ ∃ k < q.pending, i = (q.tail + k) % q.capacity)

/-- States reachable from the freshly initialized queue of capacity
`n` by any sequence of `try_push` calls and committed `pop` bodies.
A failed `try_push` leaves the state unchanged (see
`try_push_full_eq`) and a `pop` on an empty queue suspends without
touching the state, so these two constructors cover every sequence of
`try_push` and `pop` operations. -/
inductive Reachable (α : Type) (n : Nat) : Queue α → Prop
  | init : Reachable α n (Queue.init α n)
  | push (q : Queue α) (v : α) :
      Reachable α n q → Reachable α n (q.try_push v).state
  | pop (q q' : Queue α) (v : α) (w : Bool) :
      Reachable α n q → q.popCommit = some (v, q', w) → Reachable α n q'

/-- Abstraction function: the live contents of the queue in FIFO (ring)
order, oldest first. -/
def toList (q : Queue α) : List α :=
  (List.range q.pending).filterMap (fun k => q.slot ((q.tail + k) % q.capacity))

/-- Runs `try_push` on each value of `vs` in turn, requiring every
push to succeed (`none` as soon as one returns `Err`). -/
def pushAll (q : Queue α) : List α → Option (Queue α)
  | [] => some q
  | v :: vs =>
    match q.try_push v with
    | ⟨.error _, _, _⟩ => none
    | ⟨.ok _, s, _⟩ => pushAll s vs

/-- Runs the committing pop body `k` times, collecting the popped
values in order (`none` if the queue runs dry). -/
def popAll (q : Queue α) : Nat → Option (List α × Queue α)
  | 0 => some ([], q)
  | k + 1 =>
    match q.popCommit with
    | none => none
    | some (v, q', _) =>
      (popAll q' k).map (fun p => (v :: p.1, p.2))

end Queue

namespace Atomic

/-- Model of `core::sync::atomic::Ordering`.  The Rust enum is marked
non-exhaustive, so downstream matches need a wildcard arm; the
constructor `other` stands for any ordering value added to the enum in
the future, which is exactly what the wildcard panic arm of
`rmw_ordering` in the source is for. -/
inductive Ordering where
  | relaxed
  | acquire
  | release
  | acqRel
  | seqCst
  | other (n : Nat)
deriving Repr, DecidableEq

/-- Translation of `rmw_ordering` from `os/src/atomic/cortex_no_rmw.rs`
(lines 4 to 14): splits a requested read-modify-write ordering into a
(load ordering, store ordering) pair; `none` models the wildcard panic
arm.  The match arms appear in source order. -/
def rmw_ordering : Ordering → Option (Ordering × Ordering)
  | .acqRel => some (.acquire, .release)
  | .relaxed => some (.relaxed, .relaxed)
  | .seqCst => some (.seqCst, .seqCst)
  | .acquire => some (.acquire, .relaxed)
  | .release => some (.relaxed, .release)
  | .other _ => none

/-- Modulus of `u32` arithmetic. -/
def u32Mod : Nat := 2 ^ 32

/-- Native back-end (`native_rmw.rs`): value semantics of
`AtomicU32::swap` — result is the prior contents, the cell then holds
`val`.  The ordering affects only memory visibility, not the computed
values, so it does not appear. -/
def swap_native (cell val : Nat) : Nat × Nat := (cell, val)

/-- Native back-end: value semantics of `AtomicU32::fetch_add`
(wrapping addition modulo 2 to the 32). -/
def fetch_add_native (cell val : Nat) : Nat × Nat :=
  (cell, (cell + val) % u32Mod)

/-- Native back-end: value semantics of `AtomicU32::fetch_or`. -/
def fetch_or_native (cell val : Nat) : Nat × Nat :=
  (cell, cell ||| val)

/-- Machine state for the critical-section emulation: the atomic cell
contents together with the interrupt-enable state.
`cortex_m::interrupt::free` saves the interrupt state, disables
interrupts, runs the closure, and restores the saved state. -/
structure CritMachine where
  cell : Nat
  intEnabled : Bool
deriving Repr, DecidableEq

/-- Translation of `swap_polyfill` for `AtomicU32` in
`cortex_no_rmw.rs` (lines 25 to 34 of the impl): decompose the
ordering with `rmw_ordering` (panicking on a rejected ordering, hence
the `Option`), then inside `interrupt::free` perform a plain load and
a plain store of `val`; the interrupt state is restored afterwards. -/
def swap_polyfill_emu (m : CritMachine) (val : Nat) (o : Ordering) :
    Option (Nat × CritMachine) :=
  (rmw_ordering o).map (fun _ =>
    let saved := m.intEnabled
    let m1 : CritMachine := { m with intEnabled := false }
    let x := m1.cell
    let m2 : CritMachine := { m1 with cell := val }
    (x, { m2 with intEnabled := saved }))

/-- Translation of `fetch_add_polyfill` for `AtomicU32` in
`cortex_no_rmw.rs`: load `x`, store `x.wrapping_add(val)` inside the
critical section. -/
def fetch_add_polyfill_emu (m : CritMachine) (val : Nat) (o : Ordering) :
    Option (Nat × CritMachine) :=
  (rmw_ordering o).map (fun _ =>
    let saved := m.intEnabled
    let m1 : CritMachine := { m with intEnabled := false }
    let x := m1.cell
    let m2 : CritMachine := { m1 with cell := (x + val) % u32Mod }
    (x, { m2 with intEnabled := saved }))

/-- Translation of `fetch_or_polyfill` for `AtomicU32` in
`cortex_no_rmw.rs`: load `x`, store `x | val` inside the critical
section. -/
def fetch_or_polyfill_emu (m : CritMachine) (val : Nat) (o : Ordering) :
    Option (Nat × CritMachine) :=
  (rmw_ordering o).map (fun _ =>
    let saved := m.intEnabled
    let m1 : CritMachine := { m with intEnabled := false }
    let x := m1.cell
    let m2 : CritMachine := { m1 with cell := x ||| val }
    (x, { m2 with intEnabled := saved }))

/-- Value semantics of an atomic boolean swap (`AtomicBool::swap`,
which `create_static_queue!` invokes with `Ordering::SeqCst`): result
is the prior contents, the cell then holds `val`.  Both the native
instruction and the polyfill back-end realise exactly these values. -/
def swapBool (cell val : Bool) (_o : Ordering) : Bool × Bool := (cell, val)

/-- Translation of one execution of a `create_static_queue!([T; sz])`
site (queue.rs lines 353 to 397), given the current value of the
site's `INIT: AtomicBool` flag.  It performs
`assert_eq!(INIT.swap(true, Ordering::SeqCst), false)` — `none` models
the panic when the pre-swap value is not `false` — then runs
`Queue::new` on the static storage followed by `finish_init` on the
pinned queue, and returns the new flag value and the produced queue
reference. -/
def runStaticSite (α : Type) (sz : Nat) (flag : Bool) :
    Option (Bool × Queue α) :=
  let swapped := swapBool flag true .seqCst
  if swapped.1 == false then
    (Queue.init α sz).finish_init.map (fun q => (swapped.2, q))
  else
    none

end Atomic

namespace Sched

/-!
Scheduling model for the blocking `Queue::push` operation, used to
settle the fairness claim.  The push loop (queue.rs lines 139 to 150)
is in the source; the intrusive wait list `List<()>` is not part of
this repository's sources, so it is modelled from the specification's
wait-list contract (spec section 6: `insert_and_wait` enrolls the node
at the tail, `wake_one` detaches the front node and makes its task
runnable, no-op on an empty list).
-/

/-- State of one producer task executing `Queue::push(v)`: about to
run the loop body, suspended in `insert_and_wait`, or resolved. -/
inductive TaskState where
  | running (v : Nat)
  | waiting (v : Nat)
  | done
deriving Repr, DecidableEq

/-- World state: the queue, the `push_waiters` list as a FIFO of task
identifiers (front = earliest enrolled), and the tracked producer
tasks (task identifier = index into `tasks`). -/
structure World where
  queue : Queue Nat
  pushWaiters : List Nat
  tasks : List TaskState
deriving Repr, DecidableEq

/-- Looks up the state of task `i`. -/
def World.task (w : World) (i : Nat) : TaskState := w.tasks.getD i .done

/-- Polls producer task `i`: one iteration of the `Queue::push` loop
(queue.rs lines 140 to 149).  If `try_push` succeeds the future
resolves; on `Err` the task re-captures the value, creates a node and
enrolls it at the tail of `push_waiters` (`insert_and_wait`), then
suspends.  No-op unless the task is runnable. -/
def World.pollPush (w : World) (i : Nat) : World :=
  match w.task i with
  | .running v =>
    match w.queue.try_push v with
    | ⟨.ok _, s, _⟩ => { w with queue := s, tasks := w.tasks.set i .done }
    | ⟨.error v', _, _⟩ =>
      { w with pushWaiters := w.pushWaiters ++ [i],
               tasks := w.tasks.set i (.waiting v') }
  | _ => w

/-- Runs `wake_one` on `push_waiters`: detaches the front node and
makes its task runnable; no-op on an empty list. -/
def World.wakeOnePush (w : World) : World :=
  match w.pushWaiters with
  | [] => w
  | i :: rest =>
    match w.task i with
    | .waiting v =>
      { w with pushWaiters := rest, tasks := w.tasks.set i (.running v) }
    | _ => { w with pushWaiters := rest }

/-- An environment consumer runs the committing body of `pop`; if the
pre-pop state was full (the code's `t == head` test) it wakes the
front waiter of `push_waiters`.  No-op when the queue is empty. -/
def World.envPop (w : World) : World :=
  match w.queue.popCommit with
  | none => w
  | some (_, q', wake) =>
    let w' := { w with queue := q' }
    if wake then w'.wakeOnePush else w'

/-- An environment producer barging in with a `try_push` (it never
enrolls; any returned error is discarded, leaving the state as
`try_push` left it). -/
def World.envPush (w : World) (v : Nat) : World :=
  { w with queue := (w.queue.try_push v).state }

end Sched

namespace Fair

/-!
Two-sided scheduling model for the fairness claim, refining the
`Sched` model with tracked consumer tasks and both wait lists.  The
blocking loops are from the source (`Queue::push`, queue.rs lines 139
to 150, and `Queue::pop`, lines 200 to 206); the intrusive wait list
`List<()>` is not part of this repository's sources, so it is
modelled from the specification's wait-list contract (spec section 6:
`insert_and_wait` enrolls the node at the tail, `wake_one` detaches
the front node and makes its task runnable, no-op on an empty list).
A schedule is a list of task polls; the wake-atomic discipline
(`atomicSched`) requires each wake to be followed immediately by the
woken task's retry, which is exactly the absence of barging between a
wake and the retry.
-/

/-- State of one producer task executing `Queue::push(v)`: about to
run the loop body, suspended in `insert_and_wait`, or resolved. -/
inductive PTask where
  | running (v : Nat)
  | waiting (v : Nat)
  | done
deriving Repr, DecidableEq

/-- State of one consumer task executing `Queue::pop()`: about to run
the body, suspended in `insert_and_wait`, or resolved with the popped
value. -/
inductive CTask where
  | running
  | waiting
  | done (v : Nat)
deriving Repr, DecidableEq

/-- Task identifier: a producer index or a consumer index. -/
inductive Tid where
  | p (i : Nat)
  | c (i : Nat)
deriving Repr, DecidableEq

/-- World state: the queue, the two wait lists as FIFOs of task
identifiers (front = earliest enrolled), and the two task families
(task identifier = index into the list). -/
structure World where
  queue : Queue Nat
  pushWaiters : List Nat
  popWaiters : List Nat
  prod : List PTask
  cons : List CTask
deriving Repr, DecidableEq

/-- Looks up the state of producer `i` (out-of-range producers are
treated as long resolved). -/
def World.prodTask (w : World) (i : Nat) : PTask := w.prod.getD i .done

/-- Looks up the state of consumer `i`. -/
def World.consTask (w : World) (i : Nat) : CTask := w.cons.getD i (.done 0)

/-- Boolean discriminator for `PTask.waiting`. -/
def PTask.isWaiting : PTask → Bool
  | .waiting _ => true
  | _ => false

/-- Boolean discriminator for `PTask.done`. -/
def PTask.isDone : PTask → Bool
  | .done => true
  | _ => false

/-- Boolean discriminator for `CTask.done`. -/
def CTask.isDone : CTask → Bool
  | .done _ => true
  | _ => false

/-- Producer `i` has completed its push. -/
def World.prodDone (w : World) (i : Nat) : Bool := (w.prodTask i).isDone

/-- Consumer `i` has completed its pop. -/
def World.consDone (w : World) (i : Nat) : Bool := (w.consTask i).isDone

/-- Runs `wake_one` on `pop_waiters`: detaches the front node and
makes its consumer runnable (no-op on an empty list); reports the
woken task. -/
def World.wakePopW (w : World) : World × Option Tid :=
  match w.popWaiters with
  | [] => (w, none)
  | g :: rest =>
    match w.consTask g with
    | .waiting =>
      ({ w with popWaiters := rest, cons := w.cons.set g .running }, some (.c g))
    | _ => ({ w with popWaiters := rest }, some (.c g))

/-- Runs `wake_one` on `push_waiters`, symmetrically. -/
def World.wakePushW (w : World) : World × Option Tid :=
  match w.pushWaiters with
  | [] => (w, none)
  | f :: rest =>
    match w.prodTask f with
    | .waiting v =>
      ({ w with pushWaiters := rest, prod := w.prod.set f (.running v) }, some (.p f))
    | _ => ({ w with pushWaiters := rest }, some (.p f))

/-- Polls producer `i`: one iteration of the `Queue::push` loop.  On
success the future resolves and, when the push made the queue
non-empty, `wake_one` runs on `pop_waiters`; on `Err` the task
re-captures the value and enrolls at the tail of `push_waiters`.
No-op unless the task is runnable. -/
def World.stepPush (w : World) (i : Nat) : World × Option Tid :=
  match w.prodTask i with
  | .running v =>
    match w.queue.try_push v with
    | ⟨.ok _, s, wk⟩ =>
      let w1 : World := { w with queue := s, prod := w.prod.set i .done }
      if wk then w1.wakePopW else (w1, none)
    | ⟨.error v', _, _⟩ =>
      ({ w with pushWaiters := w.pushWaiters ++ [i],
                prod := w.prod.set i (.waiting v') }, none)
  | _ => (w, none)

/-- Polls consumer `j`: the body of `Queue::pop`.  On an empty queue
the task enrolls at the tail of `pop_waiters` and suspends; otherwise
the committing body runs, resolving the future with the popped value
and, when the queue was full, running `wake_one` on `push_waiters`.
No-op unless the task is runnable. -/
def World.stepPop (w : World) (j : Nat) : World × Option Tid :=
  match w.consTask j with
  | .running =>
    match w.queue.popCommit with
    | none =>
      ({ w with popWaiters := w.popWaiters ++ [j],
                cons := w.cons.set j .waiting }, none)
    | some (v, q', wk) =>
      let w1 : World := { w with queue := q', cons := w.cons.set j (.done v) }
      if wk then w1.wakePushW else (w1, none)
  | _ => (w, none)

/-- One scheduler step: poll the designated task; the second component
reports the task woken by this step, if any. -/
def step (w : World) : Tid → World × Option Tid
  | .p i => w.stepPush i
  | .c j => w.stepPop j

/-- Runs a schedule (a list of task polls) to completion. -/
def run : World → List Tid → World
  | w, [] => w
  | w, e :: s => run (step w e).1 s

/-- Wake-atomic schedules: whenever a step wakes a task, the next
entry of the schedule polls exactly that task — the woken waiter
retries before anything else touches the queue (no barging between a
wake and the retry). -/
def atomicSched : World → List Tid → Bool
  | _, [] => true
  | w, e :: s =>
    match (step w e).2 with
    | some t => (s.head? == some t) && atomicSched (step w e).1 s
    | none => atomicSched (step w e).1 s

/-- Well-formedness of a world: the queue satisfies its representation
invariant with capacity at least 1, the wait lists are duplicate-free,
and every enrolled task is in the suspended state. -/
def GoodW (w : World) : Prop :=
  Queue.Inv w.queue ∧ 1 ≤ w.queue.capacity ∧
  w.pushWaiters.Nodup ∧ w.popWaiters.Nodup ∧
  (∀ i ∈ w.pushWaiters, (w.prodTask i).isWaiting = true) ∧
  (∀ j ∈ w.popWaiters, w.consTask j = CTask.waiting)

/-- A just-woken producer: runnable, with room in the queue, so its
forced retry succeeds. -/
def PushReady (w : World) (f : Nat) : Prop :=
  (∃ v, w.prodTask f = PTask.running v) ∧
  w.queue.pending < w.queue.capacity

/-- A just-woken consumer: runnable, with data in the queue, so its
forced retry succeeds. -/
def PopReady (w : World) (g : Nat) : Prop :=
  w.consTask g = CTask.running ∧ 0 < w.queue.pending

end Fair

/-! ## Helper lemmas -/

section Helpers

variable {α β γ : Type}

theorem getD_set_self {l : List (Option α)} {i : Nat} (h : i < l.length)
    (a : Option α) : (l.set i a).getD i none = a := by
  rw [List.getD_eq_getD_get?, List.get?_set_eq_of_lt _ h, Option.getD_some]

theorem getD_set_ne {l : List (Option α)} {i j : Nat} (h : i ≠ j)
    (a : Option α) : (l.set i a).getD j none = l.getD j none := by
  rw [List.getD_eq_getD_get?, List.get?_set_ne _ _ h, ← List.getD_eq_getD_get?]

theorem getD_set_self2 {β : Type} {l : List β} {i : Nat} (h : i < l.length)
    (a d : β) : (l.set i a).getD i d = a := by
  rw [List.getD_eq_getD_get?, List.get?_set_eq_of_lt _ h, Option.getD_some]

theorem getD_set_ne2 {β : Type} {l : List β} {i j : Nat} (h : i ≠ j)
    (a d : β) : (l.set i a).getD j d = l.getD j d := by
  rw [List.getD_eq_getD_get?, List.get?_set_ne _ _ h, ← List.getD_eq_getD_get?]

theorem add_mod_inj {n t k l : Nat} (hk : k < n) (hl : l < n)
    (h : (t + k) % n = (t + l) % n) : k = l := by
  have h2 : k ≡ l [MOD n] := Nat.ModEq.add_left_cancel' t h
  rwa [Nat.ModEq, Nat.mod_eq_of_lt hk, Nat.mod_eq_of_lt hl] at h2

theorem advance_eq_mod {h n : Nat} (hn : 0 < n) (hh : h < n) :
    (if h == n - 1 then 0 else h + 1) = (h + 1) % n := by
  rcases eq_or_ne h (n - 1) with hc | hc
  · subst hc
    have hs : n - 1 + 1 = n := Nat.succ_pred_eq_of_pos hn
    simp [hs, Nat.mod_self]
  · have hlt : h + 1 < n := by omega
    simp [hc, Nat.mod_eq_of_lt hlt]

theorem filterMap_length_of_isSome {l : List β} {f : β → Option γ}
    (h : ∀ a ∈ l, (f a).isSome) : (l.filterMap f).length = l.length := by
  induction l with
  | nil => simp
  | cons a l ih =>
    obtain ⟨c, hc⟩ := Option.isSome_iff_exists.mp (h a (by simp))
    rw [List.filterMap_cons, hc, List.length_cons, List.length_cons,
      ih (fun b hb => h b (by simp [hb]))]

end Helpers

/-! ## Ring-buffer lemmas -/

namespace Queue

variable {α : Type}

theorem try_push_full_eq {q : Queue α} (h : q.pending = q.capacity) (v : α) :
    q.try_push v = ⟨.error v, q, false⟩ := by
  simp [try_push, is_full, h]

theorem try_push_not_full_eq {q : Queue α} (hh : q.head < q.capacity)
    (hnf : q.pending ≠ q.capacity) (v : α) :
    q.try_push v =
      ⟨.ok (), { q with
          storage := q.storage.set q.head (some v),
          head := (q.head + 1) % q.capacity,
          pending := q.pending + 1 },
        q.head == q.tail⟩ := by
  have hcap : 0 < q.capacity := Nat.lt_of_le_of_lt (Nat.zero_le _) hh
  simp only [try_push, is_full]
  rw [if_neg (by simp [hnf]), advance_eq_mod hcap hh]

theorem popCommit_empty_eq {q : Queue α} (h : q.pending = 0) :
    q.popCommit = none := by
  simp [popCommit, is_empty, h]

theorem popCommit_nonempty_eq {q : Queue α} {v : α}
    (ht : q.tail < q.capacity) (hp : q.pending ≠ 0)
    (hs : q.slot q.tail = some v) :
    q.popCommit = some (v, { q with
        storage := q.storage.set q.tail none,
        tail := (q.tail + 1) % q.capacity,
        pending := q.pending - 1 },
      q.tail == q.head) := by
  have hcap : 0 < q.capacity := Nat.lt_of_le_of_lt (Nat.zero_le _) ht
  simp only [popCommit, is_empty]
  rw [if_neg (by simp [hp]), hs, advance_eq_mod hcap ht]

theorem head_eq_tail_iff {q : Queue α} (hInv : Inv q) :
    q.head = q.tail ↔ (q.pending = 0 ∨ q.pending = q.capacity) := by
  obtain ⟨hp, hh, ht, hht, -⟩ := hInv
  have hcap : 0 < q.capacity := Nat.lt_of_le_of_lt (Nat.zero_le _) ht
  constructor
  · intro hEq
    by_cases h0 : q.pending = q.capacity
    · right; exact h0
    · left
      have hlt : q.pending < q.capacity := lt_of_le_of_ne hp h0
      have hmm : (q.tail + q.pending) % q.capacity =
          (q.tail + 0) % q.capacity := by
        rw [← hht, Nat.add_zero, Nat.mod_eq_of_lt ht]; exact hEq
      exact add_mod_inj hlt hcap hmm
  · rintro (h0 | hN)
    · rw [hht, h0, Nat.add_zero, Nat.mod_eq_of_lt ht]
    · rw [hht, hN, Nat.add_mod_right, Nat.mod_eq_of_lt ht]

theorem result_push {q : Queue α} (hInv : Inv q)
    (hnf : q.pending < q.capacity) (v : α) :
    (q.try_push v).result = .ok () := by
  rw [try_push_not_full_eq hInv.2.1 (Nat.ne_of_lt hnf)]

theorem capacity_push {q : Queue α} (hInv : Inv q)
    (hnf : q.pending < q.capacity) (v : α) :
    (q.try_push v).state.capacity = q.capacity := by
  rw [try_push_not_full_eq hInv.2.1 (Nat.ne_of_lt hnf)]
  simp [capacity]

theorem pending_push {q : Queue α} (hInv : Inv q)
    (hnf : q.pending < q.capacity) (v : α) :
    (q.try_push v).state.pending = q.pending + 1 := by
  rw [try_push_not_full_eq hInv.2.1 (Nat.ne_of_lt hnf)]

theorem woke_push {q : Queue α} (hInv : Inv q)
    (hnf : q.pending < q.capacity) (v : α) :
    ((q.try_push v).wokePop = true) ↔ q.pending = 0 := by
  rw [try_push_not_full_eq hInv.2.1 (Nat.ne_of_lt hnf)]
  simp only [beq_iff_eq]
  rw [head_eq_tail_iff hInv]
  constructor
  · rintro (h0 | hN)
    · exact h0
    · exact absurd hN (Nat.ne_of_lt hnf)
  · exact Or.inl

theorem inv_push {q : Queue α} (hInv : Inv q)
    (hnf : q.pending < q.capacity) (v : α) :
    Inv (q.try_push v).state := by
  obtain ⟨hp, hh, ht, hht, hlive⟩ := hInv
  have hcap : 0 < q.capacity := Nat.lt_of_le_of_lt (Nat.zero_le _) hh
  rw [try_push_not_full_eq hh (Nat.ne_of_lt hnf)]
  refine ⟨?_, ?_, ?_, ?_, ?_⟩
  · show q.pending + 1 ≤ (q.storage.set q.head (some v)).length
    rw [List.length_set]
    exact hnf
  · show (q.head + 1) % q.capacity < (q.storage.set q.head (some v)).length
    rw [List.length_set]
    exact Nat.mod_lt _ hcap
  · show q.tail < (q.storage.set q.head (some v)).length
    rw [List.length_set]
    exact ht
  · show (q.head + 1) % q.capacity =
      (q.tail + (q.pending + 1)) % (q.storage.set q.head (some v)).length
    rw [List.length_set]
    show (q.head + 1) % q.capacity = (q.tail + (q.pending + 1)) % q.capacity
    rw [hht, Nat.mod_add_mod, Nat.add_assoc]
  · intro i hi
    have hiN : i < q.capacity := by
      rw [show ({ q with
          storage := q.storage.set q.head (some v),
          head := (q.head + 1) % q.capacity,
          pending := q.pending + 1 } : Queue α).capacity =
        q.capacity from by simp [capacity]] at hi
      exact hi
    show ((q.storage.set q.head (some v)).getD i none).isSome ↔
      ∃ k < q.pending + 1, i = (q.tail + k) % (q.storage.set q.head (some v)).length
    rw [List.length_set]
    show ((q.storage.set q.head (some v)).getD i none).isSome ↔
      ∃ k < q.pending + 1, i = (q.tail + k) % q.capacity
    by_cases hih : i = q.head
    · subst hih
      rw [getD_set_self hh]
      constructor
      · intro _
        exact ⟨q.pending, Nat.lt_succ_self _, hht⟩
      · intro _
        rfl
    · rw [getD_set_ne (fun hEq => hih hEq.symm)]
      have hlv := hlive i hiN
      rw [show q.slot i = q.storage.getD i none from rfl] at hlv
      rw [hlv]
      constructor
      · rintro ⟨k, hk, rfl⟩
        exact ⟨k, Nat.lt_succ_of_lt hk, rfl⟩
      · rintro ⟨k, hk, rfl⟩
        rcases Nat.lt_succ_iff_lt_or_eq.mp hk with hk' | hk'
        · exact ⟨k, hk', rfl⟩
        · subst hk'
          exact absurd hht.symm hih

theorem toList_push {q : Queue α} (hInv : Inv q)
    (hnf : q.pending < q.capacity) (v : α) :
    (q.try_push v).state.toList = q.toList ++ [v] := by
  obtain ⟨hp, hh, ht, hht, hlive⟩ := hInv
  have hcap : 0 < q.capacity := Nat.lt_of_le_of_lt (Nat.zero_le _) hh
  rw [try_push_not_full_eq hh (Nat.ne_of_lt hnf)]
  show (List.range (q.pending + 1)).filterMap
      (fun k => (q.storage.set q.head (some v)).getD
        ((q.tail + k) % (q.storage.set q.head (some v)).length) none) =
    q.toList ++ [v]
  simp only [List.length_set]
  rw [List.range_succ, List.filterMap_append]
  congr 1
  · apply List.filterMap_congr
    intro k hk
    rw [List.mem_range] at hk
    have hkN : k < q.capacity := Nat.lt_trans hk hnf
    have hne : (q.tail + k) % q.capacity ≠ q.head := by
      rw [hht]
      intro hEq
      exact Nat.ne_of_lt hk (add_mod_inj hkN hnf hEq)
    show (q.storage.set q.head (some v)).getD ((q.tail + k) % q.capacity) none =
      q.slot ((q.tail + k) % q.capacity)
    rw [getD_set_ne (fun hEq => hne hEq.symm)]
    rfl
  · have hidx : (q.tail + q.pending) % q.storage.length = q.head := hht.symm
    simp only [List.filterMap_cons, List.filterMap_nil]
    rw [hidx, getD_set_self hh]

theorem inv_init {n : Nat} (hn : 1 ≤ n) : Inv (init α n) := by
  refine ⟨?_, ?_, ?_, ?_, ?_⟩
  · show 0 ≤ (List.replicate n (none : Option α)).length
    exact Nat.zero_le _
  · show 0 < (List.replicate n (none : Option α)).length
    simpa using hn
  · show 0 < (List.replicate n (none : Option α)).length
    simpa using hn
  · show (0 : Nat) = (0 + 0) % (List.replicate n (none : Option α)).length
    simp
  · intro i hi
    show ((List.replicate n (none : Option α)).getD i none).isSome ↔
      ∃ k < 0, i = (0 + k) % (List.replicate n (none : Option α)).length
    constructor
    · intro hs
      rcases Nat.lt_or_ge i n with h | h
      · rw [List.getD_eq_getElem _ _ (by simpa using h),
          List.getElem_replicate] at hs
        simp at hs
      · rw [List.getD_eq_default _ _ (by simpa using h)] at hs
        simp at hs
    · rintro ⟨k, hk, -⟩
      exact absurd hk (Nat.not_lt_zero _)

theorem shift_index {N t k : Nat} : ((t + 1) % N + k) % N = (t + (k + 1)) % N := by
  rw [Nat.mod_add_mod]
  congr 1
  omega

theorem shift_ne_tail {N t k : Nat} (ht : t < N) (hk : k + 1 < N) :
    (t + (k + 1)) % N ≠ t := by
  intro hEq
  have h0 : (t + (k + 1)) % N = (t + 0) % N := by
    simpa [Nat.mod_eq_of_lt ht] using hEq
  have hkz := add_mod_inj hk (Nat.lt_of_le_of_lt (Nat.zero_le _) hk) h0
  omega

theorem slot_tail_some {q : Queue α} (hInv : Inv q) (hne : 0 < q.pending) :
    ∃ v, q.slot q.tail = some v := by
  obtain ⟨hp, hh, ht, hht, hlive⟩ := hInv
  have hs : (q.slot q.tail).isSome = true :=
    (hlive q.tail ht).mpr ⟨0, hne, by rw [Nat.add_zero, Nat.mod_eq_of_lt ht]⟩
  exact Option.isSome_iff_exists.mp hs

theorem popCommit_spec {q : Queue α} (hInv : Inv q) (hne : 0 < q.pending) :
    ∃ v, q.slot q.tail = some v ∧
      q.popCommit = some (v, { q with
          storage := q.storage.set q.tail none,
          tail := (q.tail + 1) % q.capacity,
          pending := q.pending - 1 },
        q.tail == q.head) := by
  obtain ⟨v, hv⟩ := slot_tail_some hInv hne
  exact ⟨v, hv,
    popCommit_nonempty_eq hInv.2.2.1 (Nat.pos_iff_ne_zero.mp hne) hv⟩

theorem woke_pop {q : Queue α} (hInv : Inv q) (hne : 0 < q.pending) :
    ((q.tail == q.head) = true) ↔ q.pending = q.capacity := by
  rw [beq_iff_eq]
  constructor
  · intro hEq
    rcases (head_eq_tail_iff hInv).mp hEq.symm with h0 | hN
    · omega
    · exact hN
  · intro hN
    exact ((head_eq_tail_iff hInv).mpr (Or.inr hN)).symm

theorem inv_pop {q : Queue α} (hInv : Inv q) (hne : 0 < q.pending) :
    Inv ({ q with
        storage := q.storage.set q.tail none,
        tail := (q.tail + 1) % q.capacity,
        pending := q.pending - 1 } : Queue α) := by
  obtain ⟨hp, hh, ht, hht, hlive⟩ := hInv
  have hcap : 0 < q.capacity := Nat.lt_of_le_of_lt (Nat.zero_le _) ht
  refine ⟨?_, ?_, ?_, ?_, ?_⟩
  · show q.pending - 1 ≤ (q.storage.set q.tail none).length
    rw [List.length_set]
    show q.pending - 1 ≤ q.capacity
    omega
  · show q.head < (q.storage.set q.tail none).length
    rw [List.length_set]
    exact hh
  · show (q.tail + 1) % q.capacity < (q.storage.set q.tail none).length
    rw [List.length_set]
    exact Nat.mod_lt _ hcap
  · show q.head =
      ((q.tail + 1) % q.capacity + (q.pending - 1)) %
        (q.storage.set q.tail none).length
    rw [List.length_set]
    show q.head = ((q.tail + 1) % q.capacity + (q.pending - 1)) % q.capacity
    rw [Nat.mod_add_mod]
    have he : q.tail + 1 + (q.pending - 1) = q.tail + q.pending := by omega
    rw [he, ← hht]
  · intro i hi
    have hiN : i < q.capacity := by simpa [capacity] using hi
    show ((q.storage.set q.tail none).getD i none).isSome = true ↔
      ∃ k < q.pending - 1,
        i = ((q.tail + 1) % q.capacity + k) % (q.storage.set q.tail none).length
    rw [List.length_set]
    show ((q.storage.set q.tail none).getD i none).isSome = true ↔
      ∃ k < q.pending - 1,
        i = ((q.tail + 1) % q.capacity + k) % q.capacity
    by_cases hit : i = q.tail
    · subst hit
      rw [getD_set_self ht]
      constructor
      · intro hfalse
        exact absurd hfalse (by simp)
      · rintro ⟨k, hk, hEq⟩
        rw [shift_index] at hEq
        exact absurd hEq.symm (shift_ne_tail ht (by omega))
    · rw [getD_set_ne (fun hEq => hit hEq.symm)]
      have hlv := hlive i hiN
      rw [show q.slot i = q.storage.getD i none from rfl] at hlv
      rw [hlv]
      constructor
      · rintro ⟨k, hk, rfl⟩
        have hk0 : k ≠ 0 := by
          rintro rfl
          exact hit (by rw [Nat.add_zero, Nat.mod_eq_of_lt ht])
        obtain ⟨k', rfl⟩ : ∃ k', k = k' + 1 := ⟨k - 1, by omega⟩
        refine ⟨k', by omega, ?_⟩
        rw [shift_index]
      · rintro ⟨k, hk, rfl⟩
        rw [shift_index]
        exact ⟨k + 1, by omega, rfl⟩

theorem toList_pop {q : Queue α} (hInv : Inv q) (hne : 0 < q.pending) {v : α}
    (hv : q.slot q.tail = some v) :
    q.toList = v :: ({ q with
        storage := q.storage.set q.tail none,
        tail := (q.tail + 1) % q.capacity,
        pending := q.pending - 1 } : Queue α).toList := by
  obtain ⟨hp, hh, ht, hht, hlive⟩ := hInv
  have hcap : 0 < q.capacity := Nat.lt_of_le_of_lt (Nat.zero_le _) ht
  show (List.range q.pending).filterMap
      (fun k => q.slot ((q.tail + k) % q.capacity)) =
    v :: (List.range (q.pending - 1)).filterMap
      (fun k => (q.storage.set q.tail none).getD
        (((q.tail + 1) % q.capacity + k) %
          (q.storage.set q.tail none).length) none)
  simp only [List.length_set]
  obtain ⟨m, hm⟩ : ∃ m, q.pending = m + 1 := ⟨q.pending - 1, by omega⟩
  have hmN : m + 1 ≤ q.capacity := hm ▸ hp
  rw [hm, Nat.add_sub_cancel, List.range_succ_eq_map, List.filterMap_cons,
    List.filterMap_map]
  have h0 : q.slot ((q.tail + 0) % q.capacity) = some v := by
    rw [Nat.add_zero, Nat.mod_eq_of_lt ht]
    exact hv
  rw [h0]
  show v :: (List.range m).filterMap
      ((fun k => q.slot ((q.tail + k) % q.capacity)) ∘ Nat.succ) =
    v :: (List.range m).filterMap
      (fun k => (q.storage.set q.tail none).getD
        (((q.tail + 1) % q.capacity + k) % q.capacity) none)
  congr 1
  apply List.filterMap_congr
  intro k hk
  rw [List.mem_range] at hk
  have hk1 : k + 1 < q.capacity := by omega
  show q.slot ((q.tail + (k + 1)) % q.capacity) =
    (q.storage.set q.tail none).getD
      (((q.tail + 1) % q.capacity + k) % q.capacity) none
  rw [shift_index, getD_set_ne (fun hEq => shift_ne_tail ht hk1 hEq.symm)]
  rfl

theorem popCommit_full_spec {q : Queue α} (hInv : Inv q) (hne : 0 < q.pending) :
    ∃ v q₂, q.popCommit = some (v, q₂, q.tail == q.head) ∧
      Inv q₂ ∧ q₂.capacity = q.capacity ∧ q₂.pending = q.pending - 1 ∧
      q.toList = v :: q₂.toList := by
  obtain ⟨v, hv, hpc⟩ := popCommit_spec hInv hne
  refine ⟨v, _, hpc, inv_pop hInv hne, ?_, rfl, toList_pop hInv hne hv⟩
  show (q.storage.set q.tail none).length = q.capacity
  rw [List.length_set]
  rfl

theorem reachable_inv {n : Nat} (hn : 1 ≤ n) {q : Queue α}
    (h : Reachable α n q) : Inv q ∧ q.capacity = n := by
  induction h with
  | init =>
    refine ⟨inv_init hn, ?_⟩
    show (List.replicate n (none : Option α)).length = n
    simp
  | push q v hr ih =>
    obtain ⟨hInv, hcap⟩ := ih
    by_cases hf : q.pending = q.capacity
    · rw [try_push_full_eq hf]
      exact ⟨hInv, hcap⟩
    · have hnf : q.pending < q.capacity := lt_of_le_of_ne hInv.1 hf
      exact ⟨inv_push hInv hnf v, (capacity_push hInv hnf v).trans hcap⟩
  | pop q q' v w hr hpc ih =>
    obtain ⟨hInv, hcap⟩ := ih
    by_cases h0 : q.pending = 0
    · rw [popCommit_empty_eq h0] at hpc
      cases hpc
    · have hne : 0 < q.pending := Nat.pos_of_ne_zero h0
      obtain ⟨v₂, q₂, hpc₂, hInv₂, hcap₂, -, -⟩ := popCommit_full_spec hInv hne
      rw [hpc₂] at hpc
      simp only [Option.some.injEq, Prod.mk.injEq] at hpc
      obtain ⟨-, hq, -⟩ := hpc
      subst hq
      exact ⟨hInv₂, hcap₂.trans hcap⟩

theorem toList_length {q : Queue α} (hInv : Inv q) :
    q.toList.length = q.pending := by
  obtain ⟨hp, hh, ht, hht, hlive⟩ := hInv
  have hall : ∀ k ∈ List.range q.pending,
      (q.slot ((q.tail + k) % q.capacity)).isSome = true := by
    intro k hk
    rw [List.mem_range] at hk
    have hcap : 0 < q.capacity := Nat.lt_of_le_of_lt (Nat.zero_le _) ht
    exact (hlive _ (Nat.mod_lt _ hcap)).mpr ⟨k, hk, rfl⟩
  show ((List.range q.pending).filterMap
    (fun k => q.slot ((q.tail + k) % q.capacity))).length = q.pending
  rw [filterMap_length_of_isSome hall, List.length_range]

theorem pushAll_spec {q : Queue α} (hInv : Inv q) (vs : List α)
    (hlen : q.pending + vs.length ≤ q.capacity) :
    ∃ q', pushAll q vs = some q' ∧ Inv q' ∧ q'.capacity = q.capacity ∧
      q'.pending = q.pending + vs.length ∧ q'.toList = q.toList ++ vs := by
  induction vs generalizing q with
  | nil =>
    exact ⟨q, rfl, hInv, rfl, by simp, by simp⟩
  | cons v vs ih =>
    have hnf : q.pending < q.capacity := by
      simp only [List.length_cons] at hlen
      omega
    have hok := result_push hInv hnf v
    have hInv' := inv_push hInv hnf v
    have hcap' := capacity_push hInv hnf v
    have hpend' := pending_push hInv hnf v
    have htl' := toList_push hInv hnf v
    rcases hr : q.try_push v with ⟨res, s, wk⟩
    rw [hr] at hok hInv' hcap' hpend' htl'
    dsimp at hok hInv' hcap' hpend' htl'
    subst hok
    have hred : pushAll q (v :: vs) = pushAll s vs := by
      show (match q.try_push v with
        | ⟨.error _, _, _⟩ => none
        | ⟨.ok _, s, _⟩ => pushAll s vs) = pushAll s vs
      rw [hr]
    have hlen' : s.pending + vs.length ≤ s.capacity := by
      rw [hpend', hcap']
      simp only [List.length_cons] at hlen
      omega
    obtain ⟨q', hpa, hInv'', hcap'', hpend'', htl''⟩ := ih hInv' hlen'
    refine ⟨q', hred ▸ hpa, hInv'', hcap''.trans hcap', ?_, ?_⟩
    · rw [hpend'', hpend']
      simp only [List.length_cons]
      omega
    · rw [htl'', htl']
      simp [List.append_assoc]

theorem popAll_spec {q : Queue α} (hInv : Inv q) {m : Nat}
    (hm : q.pending = m) :
    ∃ q', popAll q m = some (q.toList, q') ∧ Inv q' ∧
      q'.capacity = q.capacity ∧ q'.pending = 0 := by
  induction m generalizing q with
  | zero =>
    refine ⟨q, ?_, hInv, rfl, hm⟩
    show some ([], q) = some (q.toList, q)
    have hz : q.toList = [] := by
      show (List.range q.pending).filterMap
        (fun k => q.slot ((q.tail + k) % q.capacity)) = []
      rw [hm]
      simp
    rw [hz]
  | succ m ih =>
    have hne : 0 < q.pending := by omega
    obtain ⟨v, q₂, hpc, hInv₂, hcap₂, hpend₂, htl₂⟩ :=
      popCommit_full_spec hInv hne
    have hm₂ : q₂.pending = m := by omega
    obtain ⟨q', hpa, hInv', hcap', hpend'⟩ := ih hInv₂ hm₂
    refine ⟨q', ?_, hInv', hcap'.trans hcap₂, hpend'⟩
    show (match q.popCommit with
      | none => none
      | some (v, q', _) =>
        (popAll q' m).map (fun p => (v :: p.1, p.2))) = some (q.toList, q')
    rw [hpc]
    show (popAll q₂ m).map (fun p => (v :: p.1, p.2)) = some (q.toList, q')
    rw [hpa]
    show some (v :: q₂.toList, q') = some (q.toList, q')
    rw [htl₂]

theorem dropWalk_eq_range {len : Nat} (m : Nat) :
    ∀ t, t < len →
      dropWalk len t m = (List.range m).map (fun k => (t + k) % len) := by
  induction m with
  | zero =>
    intro t ht
    simp [dropWalk]
  | succ m ih =>
    intro t ht
    have hlen : 0 < len := Nat.lt_of_le_of_lt (Nat.zero_le _) ht
    rw [dropWalk, ih ((t + 1) % len) (Nat.mod_lt _ hlen),
      List.range_succ_eq_map, List.map_cons, List.map_map]
    congr 1
    · rw [Nat.add_zero, Nat.mod_eq_of_lt ht]
    · congr 1
      funext k
      show ((t + 1) % len + k) % len = (t + Nat.succ k) % len
      rw [shift_index]

end Queue

/-! ## Fairness lemmas for the two-sided scheduling model -/

namespace Fair

theorem prodTask_lt_of_running {w : World} {f v : Nat}
    (h : w.prodTask f = PTask.running v) : f < w.prod.length := by
  by_contra hge
  rw [World.prodTask, List.getD_eq_default _ _ (Nat.le_of_not_lt hge)] at h
  cases h

theorem prodTask_lt_of_waiting {w : World} {f v : Nat}
    (h : w.prodTask f = PTask.waiting v) : f < w.prod.length := by
  by_contra hge
  rw [World.prodTask, List.getD_eq_default _ _ (Nat.le_of_not_lt hge)] at h
  cases h

theorem consTask_lt_of_running {w : World} {g : Nat}
    (h : w.consTask g = CTask.running) : g < w.cons.length := by
  by_contra hge
  rw [World.consTask, List.getD_eq_default _ _ (Nat.le_of_not_lt hge)] at h
  cases h

theorem consTask_lt_of_waiting {w : World} {g : Nat}
    (h : w.consTask g = CTask.waiting) : g < w.cons.length := by
  by_contra hge
  rw [World.consTask, List.getD_eq_default _ _ (Nat.le_of_not_lt hge)] at h
  cases h

theorem wakePopW_frame (w : World) :
    (w.wakePopW).1.prod = w.prod ∧
    (w.wakePopW).1.pushWaiters = w.pushWaiters ∧
    (w.wakePopW).1.queue = w.queue := by
  cases hpw : w.popWaiters with
  | nil => simp [World.wakePopW, hpw]
  | cons g rest =>
    cases hct : w.consTask g <;> simp [World.wakePopW, hpw, hct]

theorem wakePushW_frame (w : World) :
    (w.wakePushW).1.cons = w.cons ∧
    (w.wakePushW).1.popWaiters = w.popWaiters ∧
    (w.wakePushW).1.queue = w.queue := by
  cases hpw : w.pushWaiters with
  | nil => simp [World.wakePushW, hpw]
  | cons f rest =>
    cases hpt : w.prodTask f <;> simp [World.wakePushW, hpw, hpt]

theorem wakePushW_prod (w : World) :
    (w.wakePushW).1.prod = w.prod ∨
    ∃ f v, w.prodTask f = PTask.waiting v ∧
      (w.wakePushW).1.prod = w.prod.set f (PTask.running v) := by
  cases hpw : w.pushWaiters with
  | nil => left; simp [World.wakePushW, hpw]
  | cons f rest =>
    cases hpt : w.prodTask f with
    | waiting v =>
      right
      exact ⟨f, v, hpt, by simp [World.wakePushW, hpw, hpt]⟩
    | running v => left; simp [World.wakePushW, hpw, hpt]
    | done => left; simp [World.wakePushW, hpw, hpt]

theorem wakePopW_cons (w : World) :
    (w.wakePopW).1.cons = w.cons ∨
    ∃ g, w.consTask g = CTask.waiting ∧
      (w.wakePopW).1.cons = w.cons.set g CTask.running := by
  cases hpw : w.popWaiters with
  | nil => left; simp [World.wakePopW, hpw]
  | cons g rest =>
    cases hct : w.consTask g with
    | waiting =>
      right
      exact ⟨g, hct, by simp [World.wakePopW, hpw, hct]⟩
    | running => left; simp [World.wakePopW, hpw, hct]
    | done v => left; simp [World.wakePopW, hpw, hct]

theorem step_prod (w : World) (e : Tid) :
    (step w e).1.prod = w.prod ∨
    ∃ k x, (w.prodTask k).isDone = false ∧
      (step w e).1.prod = w.prod.set k x := by
  cases e with
  | p i =>
    cases hpt : w.prodTask i with
    | running v =>
      cases hr : w.queue.try_push v with
      | mk res s wk =>
        cases res with
        | ok u =>
          right
          refine ⟨i, .done, by rw [hpt]; rfl, ?_⟩
          cases wk with
          | true =>
            have hred : (step w (Tid.p i)).1 =
                (({ w with
                    queue := s,
                    prod := w.prod.set i PTask.done } : World).wakePopW).1 := by
              simp [step, World.stepPush, hpt, hr]
            rw [hred, (wakePopW_frame _).1]
          | false =>
            simp [step, World.stepPush, hpt, hr]
        | error v' =>
          right
          refine ⟨i, .waiting v', by rw [hpt]; rfl, ?_⟩
          simp [step, World.stepPush, hpt, hr]
    | waiting v => left; simp [step, World.stepPush, hpt]
    | done => left; simp [step, World.stepPush, hpt]
  | c j =>
    cases hct : w.consTask j with
    | running =>
      cases hpc : w.queue.popCommit with
      | none => left; simp [step, World.stepPop, hct, hpc]
      | some r =>
        obtain ⟨v, q', wk⟩ := r
        cases wk with
        | false => left; simp [step, World.stepPop, hct, hpc]
        | true =>
          have hred : (step w (Tid.c j)).1 =
              (({ w with
                  queue := q',
                  cons := w.cons.set j (CTask.done v) } : World).wakePushW).1 := by
            simp [step, World.stepPop, hct, hpc]
          rw [hred]
          rcases wakePushW_prod
              ({ w with queue := q', cons := w.cons.set j (CTask.done v) }) with
            hsame | ⟨f, v', hpt2, hset⟩
          · left
            rw [hsame]
          · right
            have hpt3 : w.prodTask f = PTask.waiting v' := hpt2
            exact ⟨f, .running v', by rw [hpt3]; rfl, hset⟩
    | waiting => left; simp [step, World.stepPop, hct]
    | done v => left; simp [step, World.stepPop, hct]

theorem step_cons (w : World) (e : Tid) :
    (step w e).1.cons = w.cons ∨
    ∃ k x, (w.consTask k).isDone = false ∧
      (step w e).1.cons = w.cons.set k x := by
  cases e with
  | c j =>
    cases hct : w.consTask j with
    | running =>
      cases hpc : w.queue.popCommit with
      | none =>
        right
        refine ⟨j, .waiting, by rw [hct]; rfl, ?_⟩
        simp [step, World.stepPop, hct, hpc]
      | some r =>
        obtain ⟨v, q', wk⟩ := r
        right
        refine ⟨j, .done v, by rw [hct]; rfl, ?_⟩
        cases wk with
        | true =>
          have hred : (step w (Tid.c j)).1 =
              (({ w with
                  queue := q',
                  cons := w.cons.set j (CTask.done v) } : World).wakePushW).1 := by
            simp [step, World.stepPop, hct, hpc]
          rw [hred, (wakePushW_frame _).1]
        | false =>
          simp [step, World.stepPop, hct, hpc]
    | waiting => left; simp [step, World.stepPop, hct]
    | done v => left; simp [step, World.stepPop, hct]
  | p i =>
    cases hpt : w.prodTask i with
    | running v =>
      cases hr : w.queue.try_push v with
      | mk res s wk =>
        cases res with
        | ok u =>
          cases wk with
          | false => left; simp [step, World.stepPush, hpt, hr]
          | true =>
            have hred : (step w (Tid.p i)).1 =
                (({ w with
                    queue := s,
                    prod := w.prod.set i PTask.done } : World).wakePopW).1 := by
              simp [step, World.stepPush, hpt, hr]
            rw [hred]
            rcases wakePopW_cons
                ({ w with queue := s, prod := w.prod.set i PTask.done }) with
              hsame | ⟨g, hgw, hset⟩
            · left
              rw [hsame]
            · right
              have hgw2 : w.consTask g = CTask.waiting := hgw
              exact ⟨g, .running, by rw [hgw2]; rfl, hset⟩
        | error v' => left; simp [step, World.stepPush, hpt, hr]
    | waiting v => left; simp [step, World.stepPush, hpt]
    | done => left; simp [step, World.stepPush, hpt]

theorem prodDone_step {w : World} {i : Nat} (h : w.prodDone i = true)
    (e : Tid) : (step w e).1.prodDone i = true := by
  rcases step_prod w e with hsame | ⟨k, x, hk, hset⟩
  · rw [World.prodDone, World.prodTask, hsame]
    exact h
  · have hki : k ≠ i := by
      rintro rfl
      rw [World.prodDone] at h
      rw [h] at hk
      cases hk
    rw [World.prodDone, World.prodTask, hset, getD_set_ne2 hki]
    exact h

theorem consDone_step {w : World} {i : Nat} (h : w.consDone i = true)
    (e : Tid) : (step w e).1.consDone i = true := by
  rcases step_cons w e with hsame | ⟨k, x, hk, hset⟩
  · rw [World.consDone, World.consTask, hsame]
    exact h
  · have hki : k ≠ i := by
      rintro rfl
      rw [World.consDone] at h
      rw [h] at hk
      cases hk
    rw [World.consDone, World.consTask, hset, getD_set_ne2 hki]
    exact h

theorem prodDone_run {w : World} {i : Nat} (h : w.prodDone i = true)
    (s : List Tid) : (run w s).prodDone i = true := by
  induction s generalizing w with
  | nil => exact h
  | cons e s ih =>
    show (run (step w e).1 s).prodDone i = true
    exact ih (prodDone_step h e)

theorem consDone_run {w : World} {i : Nat} (h : w.consDone i = true)
    (s : List Tid) : (run w s).consDone i = true := by
  induction s generalizing w with
  | nil => exact h
  | cons e s ih =>
    show (run (step w e).1 s).consDone i = true
    exact ih (consDone_step h e)

theorem step_spec {w : World} (hg : GoodW w) (e : Tid) :
    GoodW (step w e).1 ∧
    ((∃ tl, (step w e).1.pushWaiters = w.pushWaiters ++ tl) ∨
      ∃ f rest, w.pushWaiters = f :: rest ∧ (step w e).2 = some (.p f) ∧
        (step w e).1.pushWaiters = rest ∧ PushReady (step w e).1 f) ∧
    ((∃ tl, (step w e).1.popWaiters = w.popWaiters ++ tl) ∨
      ∃ g rest, w.popWaiters = g :: rest ∧ (step w e).2 = some (.c g) ∧
        (step w e).1.popWaiters = rest ∧ PopReady (step w e).1 g) := by
  obtain ⟨hInv, hcap, hnd1, hnd2, hmem1, hmem2⟩ := hg
  cases e with
  | p i =>
    cases hpt : w.prodTask i with
    | waiting v =>
      have hstep : step w (Tid.p i) = (w, none) := by
        simp [step, World.stepPush, hpt]
      rw [hstep]
      exact ⟨⟨hInv, hcap, hnd1, hnd2, hmem1, hmem2⟩,
        Or.inl ⟨[], by simp⟩, Or.inl ⟨[], by simp⟩⟩
    | done =>
      have hstep : step w (Tid.p i) = (w, none) := by
        simp [step, World.stepPush, hpt]
      rw [hstep]
      exact ⟨⟨hInv, hcap, hnd1, hnd2, hmem1, hmem2⟩,
        Or.inl ⟨[], by simp⟩, Or.inl ⟨[], by simp⟩⟩
    | running v =>
      have hilt : i < w.prod.length := prodTask_lt_of_running hpt
      have hinotin : i ∉ w.pushWaiters := by
        intro hmem
        have hw := hmem1 i hmem
        rw [hpt] at hw
        cases hw
      by_cases hfull : w.queue.pending = w.queue.capacity
      · -- queue full: Err, the producer enrolls at the tail
        have hr := Queue.try_push_full_eq hfull v
        have hstep : step w (Tid.p i) =
            ({ w with
                pushWaiters := w.pushWaiters ++ [i],
                prod := w.prod.set i (.waiting v) }, none) := by
          simp [step, World.stepPush, hpt, hr]
        rw [hstep]
        refine ⟨⟨hInv, hcap, ?_, hnd2, ?_, ?_⟩,
          Or.inl ⟨[i], rfl⟩, Or.inl ⟨[], by simp⟩⟩
        · show (w.pushWaiters ++ [i]).Nodup
          rw [List.nodup_append]
          refine ⟨hnd1, List.nodup_singleton i, ?_⟩
          intro a ha hb
          rw [List.mem_singleton] at hb
          subst hb
          exact hinotin ha
        · intro k hk
          have hk' : k ∈ w.pushWaiters ++ [i] := hk
          show ((w.prod.set i (PTask.waiting v)).getD k PTask.done).isWaiting = true
          rcases List.mem_append.mp hk' with hkl | hki
          · have hkne : i ≠ k := fun hEq => hinotin (hEq ▸ hkl)
            rw [getD_set_ne2 hkne]
            exact hmem1 k hkl
          · rw [List.mem_singleton] at hki
            subst hki
            rw [getD_set_self2 hilt]
            rfl
        · intro k hk
          exact hmem2 k hk
      · -- queue not full: the push succeeds
        have hlt : w.queue.pending < w.queue.capacity :=
          lt_of_le_of_ne hInv.1 hfull
        rcases hhr : w.queue.try_push v with ⟨res, S, wk⟩
        have hres : res = Except.ok () := by
          have h2 := Queue.result_push hInv hlt v
          rw [hhr] at h2
          exact h2
        subst hres
        have hSInv : Queue.Inv S := by
          have h2 := Queue.inv_push hInv hlt v
          rw [hhr] at h2
          exact h2
        have hScap : S.capacity = w.queue.capacity := by
          have h2 := Queue.capacity_push hInv hlt v
          rw [hhr] at h2
          exact h2
        have hSpend : S.pending = w.queue.pending + 1 := by
          have h2 := Queue.pending_push hInv hlt v
          rw [hhr] at h2
          exact h2
        have hmem1' : ∀ k ∈ w.pushWaiters,
            ((w.prod.set i PTask.done).getD k PTask.done).isWaiting = true := by
          intro k hk
          have hkne : i ≠ k := fun hEq => hinotin (hEq ▸ hk)
          rw [getD_set_ne2 hkne]
          exact hmem1 k hk
        rcases Bool.eq_false_or_eq_true wk with hwk | hwk
        · -- wake on pop_waiters (wokePop = true)
          subst hwk
          cases hpw : w.popWaiters with
          | nil =>
            have hstep : step w (Tid.p i) =
                ({ w with queue := S, prod := w.prod.set i PTask.done }, none) := by
              simp [step, World.stepPush, World.wakePopW, hpt, hhr, hpw]
            rw [hstep]
            refine ⟨⟨hSInv, ?_, hnd1, hnd2, ?_, ?_⟩,
              Or.inl ⟨[], by simp⟩, Or.inl ⟨[], by simp [hpw]⟩⟩
            · show 1 ≤ S.capacity
              rw [hScap]
              exact hcap
            · intro k hk
              exact hmem1' k hk
            · intro k hk
              exact hmem2 k hk
          | cons g rest =>
            have hgw : w.consTask g = CTask.waiting :=
              hmem2 g (by rw [hpw]; exact List.mem_cons_self g rest)
            have hgw' : w.cons.getD g (CTask.done 0) = CTask.waiting := hgw
            have hgw2 : w.cons[g]?.getD (CTask.done 0) = CTask.waiting := by
              rw [← List.get?_eq_getElem?, ← List.getD_eq_getD_get?]
              exact hgw
            have hglt : g < w.cons.length := consTask_lt_of_waiting hgw
            have hgnotin : g ∉ rest := by
              rw [hpw] at hnd2
              exact (List.nodup_cons.mp hnd2).1
            have hndrest : rest.Nodup := by
              rw [hpw] at hnd2
              exact (List.nodup_cons.mp hnd2).2
            have hstep : step w (Tid.p i) =
                ({ w with
                    queue := S,
                    popWaiters := rest,
                    prod := w.prod.set i PTask.done,
                    cons := w.cons.set g CTask.running }, some (Tid.c g)) := by
              simp [step, World.stepPush, World.wakePopW, World.consTask,
                hpt, hhr, hpw, hgw', hgw2]
            rw [hstep]
            refine ⟨⟨hSInv, ?_, hnd1, hndrest, ?_, ?_⟩,
              Or.inl ⟨[], by simp⟩,
              Or.inr ⟨g, rest, rfl, rfl, rfl, ?_, ?_⟩⟩
            · show 1 ≤ S.capacity
              rw [hScap]
              exact hcap
            · intro k hk
              exact hmem1' k hk
            · intro k hk
              have hk' : k ∈ rest := hk
              have hkne : g ≠ k := fun hEq => hgnotin (hEq ▸ hk')
              show (w.cons.set g CTask.running).getD k (CTask.done 0) =
                CTask.waiting
              rw [getD_set_ne2 hkne]
              exact hmem2 k (by rw [hpw]; exact List.mem_cons_of_mem g hk')
            · show (w.cons.set g CTask.running).getD g (CTask.done 0) =
                CTask.running
              rw [getD_set_self2 hglt]
            · show 0 < S.pending
              rw [hSpend]
              omega
        · -- no wake
          subst hwk
          have hstep : step w (Tid.p i) =
              ({ w with queue := S, prod := w.prod.set i PTask.done }, none) := by
            simp [step, World.stepPush, hpt, hhr]
          rw [hstep]
          refine ⟨⟨hSInv, ?_, hnd1, hnd2, ?_, ?_⟩,
            Or.inl ⟨[], by simp⟩, Or.inl ⟨[], by simp⟩⟩
          · show 1 ≤ S.capacity
            rw [hScap]
            exact hcap
          · intro k hk
            exact hmem1' k hk
          · intro k hk
            exact hmem2 k hk
  | c j =>
    cases hct : w.consTask j with
    | waiting =>
      have hstep : step w (Tid.c j) = (w, none) := by
        simp [step, World.stepPop, hct]
      rw [hstep]
      exact ⟨⟨hInv, hcap, hnd1, hnd2, hmem1, hmem2⟩,
        Or.inl ⟨[], by simp⟩, Or.inl ⟨[], by simp⟩⟩
    | done v =>
      have hstep : step w (Tid.c j) = (w, none) := by
        simp [step, World.stepPop, hct]
      rw [hstep]
      exact ⟨⟨hInv, hcap, hnd1, hnd2, hmem1, hmem2⟩,
        Or.inl ⟨[], by simp⟩, Or.inl ⟨[], by simp⟩⟩
    | running =>
      have hjlt : j < w.cons.length := consTask_lt_of_running hct
      have hjnotin : j ∉ w.popWaiters := by
        intro hmem
        have hw := hmem2 j hmem
        rw [hct] at hw
        cases hw
      by_cases hempty : w.queue.pending = 0
      · -- queue empty: the consumer enrolls at the tail
        have hr := Queue.popCommit_empty_eq (α := Nat) hempty
        have hstep : step w (Tid.c j) =
            ({ w with
                popWaiters := w.popWaiters ++ [j],
                cons := w.cons.set j .waiting }, none) := by
          simp [step, World.stepPop, hct, hr]
        rw [hstep]
        refine ⟨⟨hInv, hcap, hnd1, ?_, ?_, ?_⟩,
          Or.inl ⟨[], by simp⟩, Or.inl ⟨[j], rfl⟩⟩
        · show (w.popWaiters ++ [j]).Nodup
          rw [List.nodup_append]
          refine ⟨hnd2, List.nodup_singleton j, ?_⟩
          intro a ha hb
          rw [List.mem_singleton] at hb
          subst hb
          exact hjnotin ha
        · intro k hk
          exact hmem1 k hk
        · intro k hk
          have hk' : k ∈ w.popWaiters ++ [j] := hk
          show (w.cons.set j CTask.waiting).getD k (CTask.done 0) =
            CTask.waiting
          rcases List.mem_append.mp hk' with hkl | hkj
          · have hkne : j ≠ k := fun hEq => hjnotin (hEq ▸ hkl)
            rw [getD_set_ne2 hkne]
            exact hmem2 k hkl
          · rw [List.mem_singleton] at hkj
            subst hkj
            rw [getD_set_self2 hjlt]
      · -- queue non-empty: the pop commits
        have hne : 0 < w.queue.pending := Nat.pos_of_ne_zero hempty
        obtain ⟨v, q₂, hpc, hInv₂, hcap₂, hpend₂, -⟩ :=
          Queue.popCommit_full_spec hInv hne
        have hwkiff := Queue.woke_pop hInv hne
        have hmem2' : ∀ k ∈ w.popWaiters,
            (w.cons.set j (CTask.done v)).getD k (CTask.done 0) =
              CTask.waiting := by
          intro k hk
          have hkne : j ≠ k := fun hEq => hjnotin (hEq ▸ hk)
          rw [getD_set_ne2 hkne]
          exact hmem2 k hk
        rcases Bool.eq_false_or_eq_true (w.queue.tail == w.queue.head) with
          hwk | hwk
        · -- queue was full: wake on push_waiters
          have hfull : w.queue.pending = w.queue.capacity := hwkiff.mp hwk
          cases hpw : w.pushWaiters with
          | nil =>
            have hstep : step w (Tid.c j) =
                ({ w with queue := q₂, cons := w.cons.set j (.done v) }, none) := by
              simp [step, World.stepPop, World.wakePushW, hct, hpc, hwk, hpw]
            rw [hstep]
            refine ⟨⟨hInv₂, ?_, hnd1, hnd2, ?_, ?_⟩,
              Or.inl ⟨[], by simp [hpw]⟩, Or.inl ⟨[], by simp⟩⟩
            · show 1 ≤ q₂.capacity
              rw [hcap₂]
              exact hcap
            · intro k hk
              exact hmem1 k hk
            · intro k hk
              exact hmem2' k hk
          | cons f rest =>
            have hfw : (w.prodTask f).isWaiting = true :=
              hmem1 f (by rw [hpw]; exact List.mem_cons_self f rest)
            obtain ⟨v', hfw'⟩ : ∃ v', w.prodTask f = PTask.waiting v' := by
              cases hft : w.prodTask f with
              | waiting u => exact ⟨u, rfl⟩
              | running u => rw [hft] at hfw; cases hfw
              | done => rw [hft] at hfw; cases hfw
            have hfw'' : w.prod.getD f PTask.done = PTask.waiting v' := hfw'
            have hfw2 : w.prod[f]?.getD PTask.done = PTask.waiting v' := by
              rw [← List.get?_eq_getElem?, ← List.getD_eq_getD_get?]
              exact hfw'
            have hflt : f < w.prod.length := prodTask_lt_of_waiting hfw'
            have hfnotin : f ∉ rest := by
              rw [hpw] at hnd1
              exact (List.nodup_cons.mp hnd1).1
            have hndrest : rest.Nodup := by
              rw [hpw] at hnd1
              exact (List.nodup_cons.mp hnd1).2
            have hstep : step w (Tid.c j) =
                ({ w with
                    queue := q₂,
                    pushWaiters := rest,
                    prod := w.prod.set f (PTask.running v'),
                    cons := w.cons.set j (.done v) }, some (Tid.p f)) := by
              simp [step, World.stepPop, World.wakePushW, World.prodTask,
                hct, hpc, hwk, hpw, hfw'', hfw2]
            rw [hstep]
            refine ⟨⟨hInv₂, ?_, hndrest, hnd2, ?_, ?_⟩,
              Or.inr ⟨f, rest, rfl, rfl, rfl, ?_, ?_⟩,
              Or.inl ⟨[], by simp⟩⟩
            · show 1 ≤ q₂.capacity
              rw [hcap₂]
              exact hcap
            · intro k hk
              have hk' : k ∈ rest := hk
              have hkne : f ≠ k := fun hEq => hfnotin (hEq ▸ hk')
              show ((w.prod.set f (PTask.running v')).getD k PTask.done).isWaiting
                = true
              rw [getD_set_ne2 hkne]
              exact hmem1 k (by rw [hpw]; exact List.mem_cons_of_mem f hk')
            · intro k hk
              exact hmem2' k hk
            · show ∃ u, (w.prod.set f (PTask.running v')).getD f PTask.done =
                PTask.running u
              rw [getD_set_self2 hflt]
              exact ⟨v', rfl⟩
            · show q₂.pending < q₂.capacity
              rw [hcap₂, hpend₂, hfull]
              omega
        · -- queue was not full: no wake
          have hstep : step w (Tid.c j) =
              ({ w with queue := q₂, cons := w.cons.set j (.done v) }, none) := by
            simp [step, World.stepPop, hct, hpc, hwk]
          rw [hstep]
          refine ⟨⟨hInv₂, ?_, hnd1, hnd2, ?_, ?_⟩,
            Or.inl ⟨[], by simp⟩, Or.inl ⟨[], by simp⟩⟩
          · show 1 ≤ q₂.capacity
            rw [hcap₂]
            exact hcap
          · intro k hk
            exact hmem1 k hk
          · intro k hk
            exact hmem2' k hk

theorem atomic_tail {w : World} {e : Tid} {s : List Tid}
    (h : atomicSched w (e :: s) = true) :
    atomicSched (step w e).1 s = true := by
  cases ht : (step w e).2 with
  | none =>
    simp only [atomicSched, ht] at h
    exact h
  | some t =>
    simp only [atomicSched, ht, Bool.and_eq_true] at h
    exact h.2

theorem atomic_head {w : World} {e : Tid} {s : List Tid} {t : Tid}
    (h : atomicSched w (e :: s) = true) (ht : (step w e).2 = some t) :
    s.head? = some t := by
  simp only [atomicSched, ht, Bool.and_eq_true, beq_iff_eq] at h
  exact h.1

theorem woken_push_completes {w : World} {f : Nat} (hg : GoodW w)
    (hready : PushReady w f) : (step w (.p f)).1.prodDone f = true := by
  obtain ⟨⟨v, hv⟩, hroom⟩ := hready
  obtain ⟨hInv, hcap, -, -, -, -⟩ := hg
  have hflt : f < w.prod.length := prodTask_lt_of_running hv
  rcases hhr : w.queue.try_push v with ⟨res, S, wk⟩
  have hres : res = Except.ok () := by
    have h2 := Queue.result_push hInv hroom v
    rw [hhr] at h2
    exact h2
  subst hres
  rcases Bool.eq_false_or_eq_true wk with hwk | hwk
  · subst hwk
    have hred : (step w (Tid.p f)).1 =
        (({ w with
            queue := S,
            prod := w.prod.set f PTask.done } : World).wakePopW).1 := by
      simp [step, World.stepPush, hv, hhr]
    rw [hred]
    show ((((({ w with
        queue := S,
        prod := w.prod.set f PTask.done } : World).wakePopW).1).prod.getD f
      PTask.done).isDone) = true
    rw [(wakePopW_frame _).1]
    show ((w.prod.set f PTask.done).getD f PTask.done).isDone = true
    rw [getD_set_self2 hflt]
    rfl
  · subst hwk
    have hred : (step w (Tid.p f)).1 =
        { w with queue := S, prod := w.prod.set f PTask.done } := by
      simp [step, World.stepPush, hv, hhr]
    rw [hred]
    show ((w.prod.set f PTask.done).getD f PTask.done).isDone = true
    rw [getD_set_self2 hflt]
    rfl

theorem woken_pop_completes {w : World} {g : Nat} (hg : GoodW w)
    (hready : PopReady w g) : (step w (.c g)).1.consDone g = true := by
  obtain ⟨hgr, hne⟩ := hready
  obtain ⟨hInv, hcap, -, -, -, -⟩ := hg
  have hglt : g < w.cons.length := consTask_lt_of_running hgr
  obtain ⟨v, q₂, hpc, -, -, -, -⟩ := Queue.popCommit_full_spec hInv hne
  rcases Bool.eq_false_or_eq_true (w.queue.tail == w.queue.head) with hwk | hwk
  · have hred : (step w (Tid.c g)).1 =
        (({ w with
            queue := q₂,
            cons := w.cons.set g (CTask.done v) } : World).wakePushW).1 := by
      simp [step, World.stepPop, hgr, hpc, hwk]
    rw [hred]
    show ((((({ w with
        queue := q₂,
        cons := w.cons.set g (CTask.done v) } : World).wakePushW).1).cons.getD g
      (CTask.done 0)).isDone) = true
    rw [(wakePushW_frame _).1]
    show ((w.cons.set g (CTask.done v)).getD g (CTask.done 0)).isDone = true
    rw [getD_set_self2 hglt]
    rfl
  · have hred : (step w (Tid.c g)).1 =
        { w with queue := q₂, cons := w.cons.set g (CTask.done v) } := by
      simp [step, World.stepPop, hgr, hpc, hwk]
    rw [hred]
    show ((w.cons.set g (CTask.done v)).getD g (CTask.done 0)).isDone = true
    rw [getD_set_self2 hglt]
    rfl

theorem fifo_push_aux (s : List Tid) :
    ∀ w : World, GoodW w → atomicSched w s = true →
    ∀ i j a b c, w.pushWaiters = a ++ i :: b ++ j :: c →
    (run w s).prodDone j = true → (run w s).prodDone i = true := by
  induction s with
  | nil =>
    intro w hg _ i j a b c hl hj
    exfalso
    have hjmem : j ∈ w.pushWaiters := by
      rw [hl]
      simp
    have hjw := hg.2.2.2.2.1 j hjmem
    have hj' : (w.prodTask j).isDone = true := hj
    cases hpt : w.prodTask j with
    | running v => rw [hpt] at hjw; cases hjw
    | waiting v => rw [hpt] at hj'; cases hj'
    | done => rw [hpt] at hjw; cases hjw
  | cons e s ih =>
    intro w hg ha i j a b c hl hj
    obtain ⟨hg', hpushs, -⟩ := step_spec hg e
    have ha' := atomic_tail ha
    have hj2 : (run (step w e).1 s).prodDone j = true := hj
    show (run (step w e).1 s).prodDone i = true
    rcases hpushs with ⟨tl, htl⟩ | ⟨f, rest, hfr, ht, hw', hready⟩
    · refine ih (step w e).1 hg' ha' i j a b (c ++ tl) ?_ hj2
      rw [htl, hl]
      simp
    · rw [hl] at hfr
      cases a with
      | nil =>
        rw [List.nil_append] at hfr
        injection hfr with h1 hrest
        subst h1
        have hhead := atomic_head ha ht
        cases s with
        | nil => simp at hhead
        | cons e2 s2 =>
          have he2 : e2 = Tid.p i := by
            simp at hhead
            exact hhead
          subst he2
          exact prodDone_run (woken_push_completes hg' hready) s2
      | cons f' a' =>
        rw [List.cons_append] at hfr
        injection hfr with h1 hrest
        subst h1
        refine ih (step w e).1 hg' ha' i j a' b c ?_ hj2
        rw [hw']
        exact hrest.symm

theorem fifo_pop_aux (s : List Tid) :
    ∀ w : World, GoodW w → atomicSched w s = true →
    ∀ i j a b c, w.popWaiters = a ++ i :: b ++ j :: c →
    (run w s).consDone j = true → (run w s).consDone i = true := by
  induction s with
  | nil =>
    intro w hg _ i j a b c hl hj
    exfalso
    have hjmem : j ∈ w.popWaiters := by
      rw [hl]
      simp
    have hjw := hg.2.2.2.2.2 j hjmem
    have hj' : (w.consTask j).isDone = true := hj
    rw [hjw] at hj'
    cases hj'
  | cons e s ih =>
    intro w hg ha i j a b c hl hj
    obtain ⟨hg', -, hpops⟩ := step_spec hg e
    have ha' := atomic_tail ha
    have hj2 : (run (step w e).1 s).consDone j = true := hj
    show (run (step w e).1 s).consDone i = true
    rcases hpops with ⟨tl, htl⟩ | ⟨g, rest, hgr, ht, hw', hready⟩
    · refine ih (step w e).1 hg' ha' i j a b (c ++ tl) ?_ hj2
      rw [htl, hl]
      simp
    · rw [hl] at hgr
      cases a with
      | nil =>
        rw [List.nil_append] at hgr
        injection hgr with h1 hrest
        subst h1
        have hhead := atomic_head ha ht
        cases s with
        | nil => simp at hhead
        | cons e2 s2 =>
          have he2 : e2 = Tid.c i := by
            simp at hhead
            exact hhead
          subst he2
          exact consDone_run (woken_pop_completes hg' hready) s2
      | cons g' a' =>
        rw [List.cons_append] at hgr
        injection hgr with h1 hrest
        subst h1
        refine ih (step w e).1 hg' ha' i j a' b c ?_ hj2
        rw [hw']
        exact hrest.symm

end Fair

/-! ## Claims about the queue data path -/

/-- C1: for every queue of capacity `n ≥ 1` that starts empty and every
sequence `vs` of at most `n` values, the successive `try_push` calls
all succeed, and popping `vs.length` times afterwards returns exactly
`vs` in order, leaving the queue empty. -/
theorem claim_C1_fifo_round_trip (α : Type) (n : Nat) (hn : 1 ≤ n)
    (vs : List α) (hk : vs.length ≤ n) :
    ∃ q' q'', Queue.pushAll (Queue.init α n) vs = some q' ∧
      Queue.popAll q' vs.length = some (vs, q'') ∧ q''.pending = 0 := by
  have hInv0 : Queue.Inv (Queue.init α n) := Queue.inv_init hn
  have hcap0 : (Queue.init α n).capacity = n := by
    show (List.replicate n (none : Option α)).length = n
    simp
  have hlen : (Queue.init α n).pending + vs.length ≤
      (Queue.init α n).capacity := by
    rw [hcap0]
    show 0 + vs.length ≤ n
    omega
  obtain ⟨q', hpa, hInv', hcap', hpend', htl'⟩ :=
    Queue.pushAll_spec hInv0 vs hlen
  have htl0 : (Queue.init α n).toList = [] := rfl
  have hq'tl : q'.toList = vs := by
    rw [htl', htl0]
    simp
  have hq'p : q'.pending = vs.length := by
    rw [hpend']
    show 0 + vs.length = vs.length
    omega
  obtain ⟨q'', hpo, -, -, hpend''⟩ := Queue.popAll_spec hInv' hq'p
  rw [hq'tl] at hpo
  exact ⟨q', q'', hpa, hpo, hpend''⟩

/-- Witness for C1 at capacity 3 with the sequence 10, 20, 30. -/
theorem claim_C1_witness :
    ∃ q' q'', Queue.pushAll (Queue.init Nat 3) [10, 20, 30] = some q' ∧
      Queue.popAll q' 3 = some ([10, 20, 30], q'') ∧ q''.pending = 0 :=
  claim_C1_fifo_round_trip Nat 3 (by decide) [10, 20, 30] (by decide)

/-- C2: every state reachable from the freshly initialized queue of
capacity `n ≥ 1` by try_push and pop operations satisfies
`pending ≤ n`, `head < n`, `tail < n`, and `pending = 0 → head = tail`. -/
theorem claim_C2_reachable_invariants {α : Type} {n : Nat} (hn : 1 ≤ n)
    {q : Queue α} (h : Queue.Reachable α n q) :
    q.pending ≤ n ∧ q.head < n ∧ q.tail < n ∧
      (q.pending = 0 → q.head = q.tail) := by
  obtain ⟨hInv, hcap⟩ := Queue.reachable_inv hn h
  obtain ⟨hp, hh, ht, hht, -⟩ := hInv
  refine ⟨hcap ▸ hp, hcap ▸ hh, hcap ▸ ht, fun h0 => ?_⟩
  rw [hht, h0, Nat.add_zero, Nat.mod_eq_of_lt ht]

/-- Witness for C2 at the state reached by one push into a queue of
capacity 2. -/
theorem claim_C2_witness :
    ((Queue.init Nat 2).try_push 5).state.pending ≤ 2 ∧
    ((Queue.init Nat 2).try_push 5).state.head < 2 ∧
    ((Queue.init Nat 2).try_push 5).state.tail < 2 ∧
    (((Queue.init Nat 2).try_push 5).state.pending = 0 →
      ((Queue.init Nat 2).try_push 5).state.head =
        ((Queue.init Nat 2).try_push 5).state.tail) :=
  claim_C2_reachable_invariants (by decide)
    (Queue.Reachable.push _ 5 Queue.Reachable.init)

/-- C3: on a full queue (`pending = capacity`) `try_push` returns `Err`
carrying back exactly the value passed in, the resulting state is the
input state unchanged (same storage, head, tail, pending), and
`wake_one` is not called on either wait list (`wokePop = false`, and
`try_push` never touches `push_waiters`). -/
theorem claim_C3_try_push_full_rejects {α : Type} {q : Queue α}
    (h : q.pending = q.capacity) (v : α) :
    q.try_push v = ⟨.error v, q, false⟩ :=
  Queue.try_push_full_eq h v

/-- Witness for C3 at a full one-slot queue. -/
theorem claim_C3_witness :
    (⟨[some 7], 1, 0, 0⟩ : Queue Nat).try_push 42 =
      ⟨.error 42, ⟨[some 7], 1, 0, 0⟩, false⟩ :=
  claim_C3_try_push_full_rejects rfl 42

/-- C4: in every reachable state, a successful `try_push` calls
`wake_one` on `pop_waiters` exactly when the queue was empty, a
committed `pop` calls `wake_one` on `push_waiters` exactly when the
queue was full, and the code's index tests (`h == tail` with `h` the
just-written slot, and pre-update `tail == head`) are equivalent to
those empty/full transitions. -/
theorem claim_C4_wake_conditions {α : Type} {n : Nat} (hn : 1 ≤ n)
    {q : Queue α} (h : Queue.Reachable α n q) :
    (∀ v : α, q.pending < n →
      (((q.try_push v).wokePop = true) ↔ q.pending = 0)) ∧
    (∀ v q' w, q.popCommit = some (v, q', w) →
      ((w = true) ↔ q.pending = n)) ∧
    (q.pending < n → (q.head = q.tail ↔ q.pending = 0)) ∧
    (0 < q.pending → (q.tail = q.head ↔ q.pending = n)) := by
  obtain ⟨hInv, hcap⟩ := Queue.reachable_inv hn h
  subst hcap
  refine ⟨?_, ?_, ?_, ?_⟩
  · intro v hnf
    exact Queue.woke_push hInv hnf v
  · intro v q' w hpc
    by_cases h0 : q.pending = 0
    · rw [Queue.popCommit_empty_eq h0] at hpc
      cases hpc
    · have hne : 0 < q.pending := Nat.pos_of_ne_zero h0
      obtain ⟨v₂, q₂, hpc₂, -, -, -, -⟩ := Queue.popCommit_full_spec hInv hne
      rw [hpc₂] at hpc
      simp only [Option.some.injEq, Prod.mk.injEq] at hpc
      obtain ⟨-, -, hw⟩ := hpc
      rw [← hw]
      exact Queue.woke_pop hInv hne
  · intro hnf
    rw [Queue.head_eq_tail_iff hInv]
    constructor
    · rintro (h0 | hN)
      · exact h0
      · omega
    · exact Or.inl
  · intro hne
    constructor
    · intro hEq
      rcases (Queue.head_eq_tail_iff hInv).mp hEq.symm with h0 | hN
      · omega
      · exact hN
    · intro hN
      exact ((Queue.head_eq_tail_iff hInv).mpr (Or.inr hN)).symm

/-- Witness for C4 at the freshly initialized queue of capacity 1. -/
theorem claim_C4_witness :
    (∀ v : Nat, (Queue.init Nat 1).pending < 1 →
      ((((Queue.init Nat 1).try_push v).wokePop = true) ↔
        (Queue.init Nat 1).pending = 0)) ∧
    (∀ v q' w, (Queue.init Nat 1).popCommit = some (v, q', w) →
      ((w = true) ↔ (Queue.init Nat 1).pending = 1)) ∧
    ((Queue.init Nat 1).pending < 1 →
      ((Queue.init Nat 1).head = (Queue.init Nat 1).tail ↔
        (Queue.init Nat 1).pending = 0)) ∧
    (0 < (Queue.init Nat 1).pending →
      ((Queue.init Nat 1).tail = (Queue.init Nat 1).head ↔
        (Queue.init Nat 1).pending = 1)) :=
  claim_C4_wake_conditions (by decide) Queue.Reachable.init

/-- C5: in every reachable state the `Drop` implementation visits
exactly the slots `tail, tail+1, ..., tail+pending-1` modulo the
capacity, pairwise distinct; each visited slot is live (so each of the
`pending` live values is destructed exactly once), and every
unvisited slot is uninitialized (so no destructor runs on it). -/
theorem claim_C5_drop_walk {α : Type} {n : Nat} (hn : 1 ≤ n) {q : Queue α}
    (h : Queue.Reachable α n q) :
    q.dropIndices = (List.range q.pending).map (fun k => (q.tail + k) % n) ∧
    q.dropIndices.Nodup ∧
    (∀ i ∈ q.dropIndices, (q.slot i).isSome = true) ∧
    (∀ i < n, i ∉ q.dropIndices → q.slot i = none) := by
  obtain ⟨hInv, hcap⟩ := Queue.reachable_inv hn h
  subst hcap
  obtain ⟨hp, hh, ht, hht, hlive⟩ := hInv
  have hcap0 : 0 < q.capacity := Nat.lt_of_le_of_lt (Nat.zero_le _) ht
  have hwalk : q.dropIndices =
      (List.range q.pending).map (fun k => (q.tail + k) % q.capacity) :=
    Queue.dropWalk_eq_range q.pending q.tail ht
  refine ⟨hwalk, ?_, ?_, ?_⟩
  · rw [hwalk]
    refine List.Nodup.map_on ?_ (List.nodup_range q.pending)
    intro x hx y hy hEq
    rw [List.mem_range] at hx hy
    exact add_mod_inj (by omega) (by omega) hEq
  · intro i hi
    rw [hwalk, List.mem_map] at hi
    obtain ⟨k, hk, rfl⟩ := hi
    rw [List.mem_range] at hk
    exact (hlive _ (Nat.mod_lt _ hcap0)).mpr ⟨k, hk, rfl⟩
  · intro i hiN hnotin
    have hns : ¬ (q.slot i).isSome = true := by
      rw [hlive i hiN]
      rintro ⟨k, hk, rfl⟩
      apply hnotin
      rw [hwalk, List.mem_map]
      exact ⟨k, List.mem_range.mpr hk, rfl⟩
    exact Option.not_isSome_iff_eq_none.mp hns

/-- Witness for C5 at the state holding 10, 20, 30 in a queue of
capacity 4. -/
theorem claim_C5_witness :
    ((((Queue.init Nat 4).try_push 10).state.try_push 20).state.try_push
        30).state.dropIndices =
      (List.range ((((Queue.init Nat 4).try_push 10).state.try_push
        20).state.try_push 30).state.pending).map
        (fun k => (((((Queue.init Nat 4).try_push 10).state.try_push
          20).state.try_push 30).state.tail + k) % 4) ∧
    ((((Queue.init Nat 4).try_push 10).state.try_push 20).state.try_push
      30).state.dropIndices.Nodup ∧
    (∀ i ∈ ((((Queue.init Nat 4).try_push 10).state.try_push
        20).state.try_push 30).state.dropIndices,
      (((((Queue.init Nat 4).try_push 10).state.try_push
        20).state.try_push 30).state.slot i).isSome = true) ∧
    (∀ i < 4, i ∉ ((((Queue.init Nat 4).try_push 10).state.try_push
        20).state.try_push 30).state.dropIndices →
      ((((Queue.init Nat 4).try_push 10).state.try_push
        20).state.try_push 30).state.slot i = none) :=
  claim_C5_drop_walk (by decide)
    (Queue.Reachable.push _ 30 (Queue.Reachable.push _ 20
      (Queue.Reachable.push _ 10 Queue.Reachable.init)))

/-! ## Claims about initialization and the atomic layer -/

/-- C10: `finish_init` indexes element 0 of the storage slice, so it
panics exactly on a zero-length storage slice and never panics when
the slice holds at least one slot. -/
theorem claim_C10_finish_init {α : Type} (q : Queue α) :
    (q.storage.length = 0 → q.finish_init = none) ∧
    (1 ≤ q.storage.length → q.finish_init.isSome = true) := by
  constructor
  · intro h0
    show (q.storage.get? 0).map (fun _ => q) = none
    rw [List.get?_eq_none.mpr (by omega)]
    rfl
  · intro h1
    show ((q.storage.get? 0).map (fun _ => q)).isSome = true
    cases hs : q.storage.get? 0 with
    | none =>
      rw [List.get?_eq_none] at hs
      omega
    | some a => rfl

/-- Witness for C10 on the empty and a one-slot storage. -/
theorem claim_C10_witness :
    (⟨[], 0, 0, 0⟩ : Queue Nat).finish_init = none ∧
    ((⟨[none], 0, 0, 0⟩ : Queue Nat).finish_init).isSome = true :=
  ⟨(claim_C10_finish_init ⟨[], 0, 0, 0⟩).1 rfl,
    (claim_C10_finish_init ⟨[none], 0, 0, 0⟩).2 (by decide)⟩

/-- C6: executing a `create_static_queue!` site with the guard flag
still `false` succeeds, produces the initialized queue and leaves the
guard `true`; executing the site again (guard `true`, so the pre-swap
value of the SeqCst boolean swap is not `false`) panics, and the pure
result of the first execution is unaffected. -/
theorem claim_C6_static_double_init (α : Type) (sz : Nat) (hsz : 1 ≤ sz) :
    Atomic.runStaticSite α sz false = some (true, Queue.init α sz) ∧
    Atomic.runStaticSite α sz true = none := by
  obtain ⟨m, rfl⟩ : ∃ m, sz = m + 1 := ⟨sz - 1, by omega⟩
  exact ⟨rfl, rfl⟩

/-- Witness for C6 at element type Nat and 3 slots. -/
theorem claim_C6_witness :
    Atomic.runStaticSite Nat 3 false = some (true, Queue.init Nat 3) ∧
    Atomic.runStaticSite Nat 3 true = none :=
  claim_C6_static_double_init Nat 3 (by decide)

/-- C7: `rmw_ordering` maps Relaxed to (Relaxed, Relaxed), Acquire to
(Acquire, Relaxed), Release to (Relaxed, Release), AcqRel to
(Acquire, Release), SeqCst to (SeqCst, SeqCst), and panics on every
other ordering value (the wildcard arm for the non-exhaustive enum). -/
theorem claim_C7_rmw_ordering_table :
    Atomic.rmw_ordering .relaxed = some (.relaxed, .relaxed) ∧
    Atomic.rmw_ordering .acquire = some (.acquire, .relaxed) ∧
    Atomic.rmw_ordering .release = some (.relaxed, .release) ∧
    Atomic.rmw_ordering .acqRel = some (.acquire, .release) ∧
    Atomic.rmw_ordering .seqCst = some (.seqCst, .seqCst) ∧
    ∀ n : Nat, Atomic.rmw_ordering (.other n) = none :=
  ⟨rfl, rfl, rfl, rfl, rfl, fun _ => rfl⟩

/-- C8: for every ordering the emulation accepts (those on which
`rmw_ordering` does not panic), the critical-section back-end computes
the same values as the native back-end for all three polyfill
operations — same returned prior contents, same new cell contents —
and restores the interrupt-enable state. -/
theorem claim_C8_backend_equivalence {o lo so : Atomic.Ordering}
    (h : Atomic.rmw_ordering o = some (lo, so)) (c v : Nat) (e : Bool) :
    Atomic.swap_polyfill_emu ⟨c, e⟩ v o =
      some ((Atomic.swap_native c v).1, ⟨(Atomic.swap_native c v).2, e⟩) ∧
    Atomic.fetch_add_polyfill_emu ⟨c, e⟩ v o =
      some ((Atomic.fetch_add_native c v).1,
        ⟨(Atomic.fetch_add_native c v).2, e⟩) ∧
    Atomic.fetch_or_polyfill_emu ⟨c, e⟩ v o =
      some ((Atomic.fetch_or_native c v).1,
        ⟨(Atomic.fetch_or_native c v).2, e⟩) := by
  refine ⟨?_, ?_, ?_⟩ <;>
    simp [Atomic.swap_polyfill_emu, Atomic.fetch_add_polyfill_emu,
      Atomic.fetch_or_polyfill_emu, Atomic.swap_native,
      Atomic.fetch_add_native, Atomic.fetch_or_native, h]

/-- Witness for C8 at SeqCst with cell 5, operand 7, interrupts on. -/
theorem claim_C8_witness :
    Atomic.rmw_ordering .seqCst = some (.seqCst, .seqCst) ∧
    (Atomic.swap_polyfill_emu ⟨5, true⟩ 7 .seqCst = some (5, ⟨7, true⟩) ∧
     Atomic.fetch_add_polyfill_emu ⟨5, true⟩ 7 .seqCst = some (5, ⟨12, true⟩) ∧
     Atomic.fetch_or_polyfill_emu ⟨5, true⟩ 7 .seqCst = some (5, ⟨7, true⟩)) :=
  ⟨rfl, @claim_C8_backend_equivalence .seqCst .seqCst .seqCst rfl 5 7 true⟩

/-! ## Claim about waiter fairness -/

/-- C9 counterexample: an interleaving in which producer 0 enrolls in
`push_waiters` strictly before producer 1, yet producer 1's push
completes while producer 0's never does.  Capacity-1 queue, full
with 100; both producers enroll; a pop wakes producer 0, but a barging
environment push refills the queue before producer 0 retries, so
producer 0 re-enrolls at the tail behind producer 1; the next pop then
wakes producer 1, which completes.  Producer 0 ends suspended, so its
operation did not complete before producer 1's. -/
theorem claim_C9_counterexample :
    let w0 : Sched.World :=
      { queue := ⟨[some 100], 1, 0, 0⟩, pushWaiters := [],
        tasks := [.running 1, .running 2] }
    let w2 := (w0.pollPush 0).pollPush 1
    let w7 := ((((w2.envPop).envPush 50).pollPush 0).envPop).pollPush 1
    w2.pushWaiters = [0, 1] ∧ w7.task 1 = .done ∧ w7.task 0 ≠ .done := by
  decide

/-- C9 amended: for every world satisfying the well-formedness
invariant and every wake-atomic schedule — one in which each wake is
immediately followed by the woken task's retry, that is, no barging
occurs between a wake and the retry — waiters complete in enrollment
order on both wait lists: whenever producer `i` precedes producer `j`
in `push_waiters`, producer `j`'s push completes only if producer
`i`'s already has, and symmetrically for consumers in `pop_waiters`.
Enrollment appends at the tail, so list order is enrollment order, and
the statement quantifies over every well-formed world, hence applies
at any reachable point to any two tasks simultaneously enrolled.  With
barging the property fails (see the counterexample above). -/
theorem claim_C9_fifo_no_barging (s : List Fair.Tid) (w : Fair.World)
    (hg : Fair.GoodW w) (ha : Fair.atomicSched w s = true) :
    (∀ i j a b c, w.pushWaiters = a ++ i :: b ++ j :: c →
      (Fair.run w s).prodDone j = true →
      (Fair.run w s).prodDone i = true) ∧
    (∀ i j a b c, w.popWaiters = a ++ i :: b ++ j :: c →
      (Fair.run w s).consDone j = true →
      (Fair.run w s).consDone i = true) :=
  ⟨fun i j a b c hl hj => Fair.fifo_push_aux s w hg ha i j a b c hl hj,
   fun i j a b c hl hj => Fair.fifo_pop_aux s w hg ha i j a b c hl hj⟩

/-- Witness for the amended C9: a capacity-1 queue, full, with three
enrolled producers and three consumers popping under the wake-atomic
schedule of the specification's three-producer scenario. -/
theorem claim_C9_fifo_no_barging_witness :
    let w : Fair.World :=
      { queue := ⟨[some 9], 1, 0, 0⟩, pushWaiters := [0, 1, 2],
        popWaiters := [], prod := [.waiting 1, .waiting 2, .waiting 3],
        cons := [.running, .running, .running] }
    let s : List Fair.Tid := [.c 0, .p 0, .c 1, .p 1, .c 2, .p 2]
    (∀ i j a b c, w.pushWaiters = a ++ i :: b ++ j :: c →
      (Fair.run w s).prodDone j = true →
      (Fair.run w s).prodDone i = true) ∧
    (∀ i j a b c, w.popWaiters = a ++ i :: b ++ j :: c →
      (Fair.run w s).consDone j = true →
      (Fair.run w s).consDone i = true) := by
  intro w s
  exact claim_C9_fifo_no_barging s w
    (by unfold Fair.GoodW Queue.Inv; decide) (by decide)

end Lilos

